import Mathlib

/-!
# Verification of the `NostrRoom` event pipeline

A shallow embedding of the `NostrRoom` class (subscription-fed ingestion,
bounded cache, listener registry with wildcard dispatch, and the publish
pipeline), together with theorems checking the specification's claims
against it.

Listener callbacks are deep-embedded (`Fn`): a callback is either inert
(records its invocation), a `once`-wrapper (removes itself from the
registry, then invokes the wrapped callback), or a throwing callback.
Dispatch is an interpreter over these, threading an explicit room state
and an optional escaped exception. JavaScript `Set` iteration order is
insertion order, modelled by duplicate-free lists; function reference
equality is modelled by giving each callback a numeric identity.
-/

/-- Parsed result of an envelope's (decrypted) content: either a
well-formed `{ eventName, payload }` message, or a string whose
`JSON.parse` throws the error value `e`. Payloads are opaque. -/
inductive Body where
  | msg (name : String) (payload : Nat)
  | bad (e : Nat)
  deriving DecidableEq, Repr

/-- The `content` field of an inbound event. `plain` has no `?iv=`
marker and is parsed as-is; `cipherOk`/`cipherBad` contain the marker,
so ingestion decrypts first (`cipherBad e` models `Cipher.decrypt`
throwing `e`). `Cipher` itself is an external collaborator. -/
inductive Content where
  | plain (b : Body)
  | cipherOk (b : Body)
  | cipherBad (e : Nat)
  deriving DecidableEq, Repr

/-- A raw signed transport event. The `expired` and `valid` flags model
the `SignedEvent` view's `isExpired` / `isValid` (the view lives in
`event.js`, an external collaborator per the spec's interface contract);
`isAuthor pk` is pubkey equality. -/
structure NEvent where
  pubkey : String
  created_at : Nat
  expired : Bool
  valid : Bool
  content : Content
  deriving DecidableEq, Repr

/-- Argument values passed to listener callbacks. -/
inductive Val where
  | vstr (s : String)
  | vjson (n : Nat)
  | vevent (e : NEvent)
  | verr (e : Nat)
  deriving DecidableEq, Repr

/-- Deep-embedded listener callbacks.
`inert k` records the call `(k, args)`.
`onceW k nm inner` is the closure built by `once(nm, fn)`: it removes
itself from `events[nm]`, then applies the wrapped `fn` (identity
`inner`); both the wrapper call and the inner call are recorded.
`thrower k e` records its call, then throws `e`. -/
inductive Fn where
  | inert (k : Nat)
  | onceW (k : Nat) (nm : String) (inner : Nat)
  | thrower (k : Nat) (e : Nat)
  deriving DecidableEq, Repr

/-- The identity a callback reports for its own invocation record. -/
def idOf : Fn → Nat
  | .inert k => k
  | .onceW k _ _ => k
  | .thrower k _ => k

/-- All callback identities whose invocation a given callback can cause
(the `once` wrapper also invokes its wrapped function). -/
def fnIds : Fn → List Nat
  | .inert k => [k]
  | .onceW k _ inner => [k, inner]
  | .thrower k _ => [k]

def isThrow : Fn → Bool
  | .thrower _ _ => true
  | _ => false

/-- The listener registry `this.events : Record<string, Set<Function>>`,
as an association list from event name to insertion-ordered set. -/
abbrev Registry := List (String × List Fn)

/-- Read a key's subscriber set. `_getFn` lazily inserts an empty set
for a missing key; observationally this is reading with default `[]`. -/
def regGet (r : Registry) (n : String) : List Fn :=
  match r.find? (fun p => p.1 == n) with
  | some p => p.2
  | none => []

/-- Overwrite (or create) a key's subscriber set. -/
def regSet (r : Registry) (n : String) (fns : List Fn) : Registry :=
  match r with
  | [] => [(n, fns)]
  | p :: ps => if p.1 == n then (n, fns) :: ps else p :: regSet ps n fns

/-- `Set.add`: a no-op when the element is present, else append
(JS sets iterate in insertion order). -/
def setAdd (fns : List Fn) (f : Fn) : List Fn :=
  if f ∈ fns then fns else fns ++ [f]

/-- `Set.delete`: remove the element, preserving the others' order. -/
def setDel (fns : List Fn) (f : Fn) : List Fn :=
  fns.filter (fun g => g != f)

/-- A cache entry `[ eventName, payload, envelope ]`. -/
abbrev CacheEntry := String × Nat × NEvent

/-- The mutable state of a room: the `connected` flag, the bounded
event cache, the listener registry, and a trace of listener
invocations `(callback identity, argument list)`, oldest first. -/
structure RoomSt where
  connected : Bool
  cache : List CacheEntry
  events : Registry
  calls : List (Nat × List Val)
  deriving Repr

/-- `RoomConfig` after merging defaults (the `filter` field only feeds
the subscription request, which is an external effect). -/
structure Config where
  cacheSize : Nat
  allowEcho : Bool
  encryption : Bool
  expiration : Nat
  kind : Nat
  tags : List (List String)
  inactiveLimit : Option Nat
  deriving Repr

/-- Invoke one callback: returns the updated state and the thrown
value, if the callback threw. -/
def applyFn (f : Fn) (args : List Val) (st : RoomSt) : RoomSt × Option Nat :=
  match f with
  | .inert k => ({ st with calls := st.calls ++ [(k, args)] }, none)
  | .onceW k nm inner =>
      ({ st with
          events := regSet st.events nm (setDel (regGet st.events nm) (.onceW k nm inner)),
          calls := st.calls ++ [(k, args), (inner, args)] }, none)
  | .thrower k e => ({ st with calls := st.calls ++ [(k, args)] }, some e)

/-- The named-dispatch loop of `emit`: `for (const fn of fns) fn.apply(this, args)`.
A throw aborts the loop and escapes. -/
def runFns : List Fn → List Val → RoomSt → RoomSt × Option Nat
  | [], _, st => (st, none)
  | f :: fs, args, st =>
      let r := applyFn f args st
      match r.2 with
      | some e => (r.1, some e)
      | none => runFns fs args r.1

/-- The wildcard loop of `emit`. Faithful to the source: the statement
`args = [ eventName, ...args ]` sits INSIDE the loop, so each iteration
prepends the event name to the argument list again. -/
def runWild (nm : String) : List Fn → List Val → RoomSt → RoomSt × Option Nat
  | [], _, st => (st, none)
  | f :: fs, args, st =>
      let args1 := Val.vstr nm :: args
      let r := applyFn f args1 st
      match r.2 with
      | some e => (r.1, some e)
      | none => runWild nm fs args1 r.1

/-- `emit(eventName, ...args)`: snapshot the named subscriber set and
invoke each listener; then snapshot the wildcard set (from the registry
as mutated by the named phase) and run the wildcard loop. -/
def emit (nm : String) (args : List Val) (st : RoomSt) : RoomSt × Option Nat :=
  let fns := regGet st.events nm
  let r := runFns fns args st
  match r.2 with
  | some e => (r.1, some e)
  | none => runWild nm (regGet r.1.events "*") args r.1

/-- `on(eventName, fn)`: add to the (lazily created) subscriber set. -/
def onReg (st : RoomSt) (nm : String) (f : Fn) : RoomSt :=
  { st with events := regSet st.events nm (setAdd (regGet st.events nm) f) }

/-- `once(eventName, fn)`: register the self-removing wrapper via `on`. -/
def onceReg (st : RoomSt) (nm : String) (k inner : Nat) : RoomSt :=
  onReg st nm (.onceW k nm inner)

/-- `remove(eventName, fn)`. -/
def removeReg (st : RoomSt) (nm : String) (f : Fn) : RoomSt :=
  { st with events := regSet st.events nm (setDel (regGet st.events nm) f) }

/-- `prune(eventName)`. -/
def pruneReg (st : RoomSt) (nm : String) : RoomSt :=
  { st with events := regSet st.events nm [] }

/-- Decrypt (when marked) and `JSON.parse` an inbound content, as the
try-block of `_eventHandler` does, yielding `(eventName, payload)` or
the thrown error. -/
def decode : Content → Except Nat (String × Nat)
  | .plain (.msg n p) => .ok (n, p)
  | .plain (.bad e) => .error e
  | .cipherOk (.msg n p) => .ok (n, p)
  | .cipherOk (.bad e) => .error e
  | .cipherBad e => .error e

/-- The cache update of `_eventHandler`: push the entry, then `shift()`
(drop index 0) when the length exceeds `cacheSize`. -/
def cacheStep (cs : Nat) (cache : List CacheEntry) (en : CacheEntry) : List CacheEntry :=
  let c1 := cache ++ [en]
  if cs < c1.length then c1.drop 1 else c1

/-- `_eventHandler(event)`: gate on echo / expiration / validity
(silent drop), then decrypt+parse inside a try block; on success push
to the cache, evict the oldest when over `cacheSize`, and dispatch; the
catch emits `_error` with the thrown value. The returned `Option Nat`
is an exception escaping the handler (possible only when a listener of
the `_error` dispatch itself throws). `pk` is `this.client.pubkey`,
applied as `pk ?? ''`. -/
def handleEvent (cfg : Config) (pk : Option String) (ev : NEvent) (st : RoomSt) :
    RoomSt × Option Nat :=
  let echoed := !cfg.allowEcho && (ev.pubkey == pk.getD "")
  if echoed || ev.expired || !ev.valid then (st, none)
  else
    match decode ev.content with
    | .error e => emit "_error" [Val.verr e] st
    | .ok (n, p) =>
        let cache1 := st.cache ++ [(n, p, ev)]
        let cache2 := if cfg.cacheSize < cache1.length then cache1.drop 1 else cache1
        let st1 := { st with cache := cache2 }
        let r := emit n [Val.vjson p, Val.vevent ev] st1
        match r.2 with
        | none => (r.1, none)
        | some e => emit "_error" [Val.verr e] r.1

/-- Feed a stream of inbound events through the handler (each
invocation is independent; an escaped rejection does not stop the
subscription from delivering further events). -/
def handleAll (cfg : Config) (pk : Option String) (evs : List NEvent) (st : RoomSt) : RoomSt :=
  evs.foldl (fun s e => (handleEvent cfg pk e s).1) st

/-- Whether the handler accepts an event: it passes the echo /
expiration / validity gate and its content decrypts and parses. -/
def accepted (cfg : Config) (pk : Option String) (ev : NEvent) : Bool :=
  !((!cfg.allowEcho && (ev.pubkey == pk.getD "")) || ev.expired || !ev.valid) &&
    (match decode ev.content with | .ok _ => true | .error _ => false)

/-- The cache entry an accepted event contributes. -/
def entryOf (ev : NEvent) : Option CacheEntry :=
  match decode ev.content with
  | .ok (n, p) => some (n, p, ev)
  | .error _ => none

/-- Modelled from the spec: `isExpired(timestamp, limit)` from
`util.js` is not part of the given sources; per the spec it is the
freshness predicate on an envelope timestamp, true when the timestamp
falls outside the freshness window (i.e. the entry is stale). `nowT`
is the current time. -/
def isExpired (nowT ts limit : Nat) : Bool :=
  ts + limit < nowT

/-- The `members` getter: when `inactiveLimit` is set, keep the cache
entries satisfying `isExpired(created_at, limit)`, then map every kept
entry to its envelope's `pubkey`. -/
def members (nowT : Nat) (cfg : Config) (cache : List CacheEntry) : List String :=
  let c : List CacheEntry := match cfg.inactiveLimit with
    | some limit => cache.filter (fun en => isExpired nowT en.2.2.created_at limit)
    | none => cache
  c.map (fun en => en.2.2.pubkey)

/-- The claim's reading of `members`: exclude the stale entries
(those outside the freshness window), then map to pubkeys and keep
distinct keys only. Stated from the spec's words, for comparison. -/
def membersClaimed (nowT : Nat) (cfg : Config) (cache : List CacheEntry) : List String :=
  let c : List CacheEntry := match cfg.inactiveLimit with
    | some limit => cache.filter (fun en => !(isExpired nowT en.2.2.created_at limit))
    | none => cache
  (c.map (fun en => en.2.2.pubkey)).dedup

/-- What `members` actually computes, phrased as a single pass: the
pubkeys (duplicates preserved, in cache order) of those entries that
satisfy `isExpired` when `inactiveLimit` is set, and of all entries
otherwise. -/
def membersAmendedDef (nowT : Nat) (cfg : Config) (cache : List CacheEntry) : List String :=
  cache.filterMap (fun en =>
    match cfg.inactiveLimit with
    | some limit =>
        if isExpired nowT en.2.2.created_at limit then some en.2.2.pubkey else none
    | none => some en.2.2.pubkey)

/-- `this.cipher = Buff.str(secret).digest`, over an abstract digest. -/
def cipherOf (digest : String → String) (secret : String) : String :=
  digest secret

/-- `get id () { return this.cipher.digest }`: the second-order digest. -/
def roomIdOf (digest : String → String) (secret : String) : String :=
  digest (cipherOf digest secret)

/-- The outbound event draft `{ kind, ...rest, tags }` plus `content`:
`rest` is the template minus its `tags` field, so a template `kind` or
`created_at` overrides, while the built tag list and the serialized
content always win. -/
structure Draft where
  kind : Nat
  created_at : Option Nat
  tags : List (List String)
  content : String
  deriving DecidableEq, Repr

/-- A `Partial<EventTemplate>` override passed to `pub`. -/
structure Template where
  kind : Option Nat
  tags : Option (List (List String))
  content : Option String
  created_at : Option Nat
  deriving DecidableEq, Repr

/-- The tag list built by `pub`: configured tags, then template tags,
then exactly one `h` tag and one `expiration` tag. -/
def mkTags (cfg : Config) (tmplTags : List (List String)) (idHex : String) (nowT : Nat) :
    List (List String) :=
  cfg.tags ++ tmplTags ++ [["h", idHex], ["expiration", toString (nowT + cfg.expiration)]]

/-- Result of a `pub` call. `notConnected` is the synchronous throw of
`'Not connected to room!'`; `published draft ev` resolves with the
transport's event after submitting `draft`; `failed e esc` is the catch
path: the try block threw `e`, `_error` was emitted, and the call
resolves with `undefined` (`esc` is an exception thrown by an `_error`
listener, which would escape `pub` as a rejection). -/
inductive PubOut where
  | notConnected
  | published (draft : Draft) (ev : NEvent)
  | failed (e : Nat) (esc : Option Nat)
  deriving DecidableEq, Repr

/-- The try block of `pub`: serialize (`ser` is the outcome of
`JSON.stringify({ eventName, payload })`), optionally encrypt, build
the tags and draft, and submit (`submit` is `client.publish`). -/
def pubAttempt (cfg : Config) (idHex : String) (nowT : Nat)
    (ser : Except Nat String) (enc : String → Except Nat String)
    (submit : Draft → Except Nat NEvent) (tmpl : Template) :
    Except Nat (Draft × NEvent) :=
  match ser with
  | .error e => .error e
  | .ok c0 =>
      match (if cfg.encryption then enc c0 else .ok c0) with
      | .error e => .error e
      | .ok content =>
          let draft : Draft :=
            { kind := tmpl.kind.getD cfg.kind
              created_at := tmpl.created_at
              tags := mkTags cfg (tmpl.tags.getD []) idHex nowT
              content := content }
          match submit draft with
          | .error e => .error e
          | .ok ev => .ok (draft, ev)

/-- `pub(eventName, payload, template)`: throw when not connected,
else run the try block; its failure is caught, `_error` is emitted
with the error, and the call resolves `undefined`. -/
def pub (cfg : Config) (idHex : String) (nowT : Nat)
    (ser : Except Nat String) (enc : String → Except Nat String)
    (submit : Draft → Except Nat NEvent) (tmpl : Template) (st : RoomSt) :
    RoomSt × PubOut :=
  if !st.connected then (st, .notConnected)
  else
    match pubAttempt cfg idHex nowT ser enc submit tmpl with
    | .ok (draft, ev) => (st, .published draft ev)
    | .error e =>
        let r := emit "_error" [Val.verr e] st
        (r.1, .failed e r.2)

/-- Run a sequence of external `emit` calls `(eventName, args)`. -/
def emitSeq (l : List (String × List Val)) (st : RoomSt) : RoomSt :=
  l.foldl (fun s p => (emit p.1 p.2 s).1) st

/-- Number of recorded invocations of the callback identity `i`. -/
def countId (i : Nat) (cs : List (Nat × List Val)) : Nat :=
  (cs.filter (fun c => c.1 == i)).length

/-- Pointwise containment of registries: every subscriber of `r1`
under any key is a subscriber of `r2` under that key. Dispatch never
adds listeners, so states evolve downwards along this order. -/
def regLe (r1 r2 : Registry) : Prop :=
  ∀ n f, f ∈ regGet r1 n → f ∈ regGet r2 n

/-- No listener anywhere in the registry can cause an invocation of
the callback identity `i`. -/
def noMention (i : Nat) (r : Registry) : Prop :=
  ∀ n f, f ∈ regGet r n → i ∉ fnIds f

/-- The invocation records produced by the wildcard loop over an
all-inert subscriber list: the event name is prepended once more at
each iteration. -/
def wildCalls (nm : String) : List Fn → List Val → List (Nat × List Val)
  | [], _ => []
  | f :: fs, args => (idOf f, Val.vstr nm :: args) :: wildCalls nm fs (Val.vstr nm :: args)

/-- Concrete accepted events for the C2 witness. -/
def evC2a : NEvent := ⟨"x", 1, false, true, .plain (.msg "a" 1)⟩

def evC2b : NEvent := ⟨"y", 2, false, true, .cipherOk (.msg "b" 2)⟩

/-- Concrete inputs for the C7 witness. -/
def cfgC7 : Config := ⟨1, false, false, 5, 21111, [["t", "1"]], none⟩

def tmplC7 : Template := ⟨some 7, some [["o", "2"]], some "zzz", some 42⟩

def evC7 : NEvent := ⟨"srv", 0, false, true, .plain (.msg "a" 1)⟩

def draftC7 : Draft :=
  ⟨7, some 42, [["t", "1"], ["o", "2"], ["h", "RID"], ["expiration", "15"]], "body"⟩

def subC7 : Draft → Except Nat NEvent := fun _ => .ok evC7

/-- Concrete inputs for the C10 witness: a room with a plain listener
and a throwing listener under `"chat"`, one `_error` listener and one
wildcard listener. -/
def evC10 : NEvent := ⟨"alice", 3, false, true, .plain (.msg "chat" 4)⟩

def stC10 : RoomSt :=
  ⟨true, [],
    [("chat", [Fn.inert 5, Fn.thrower 6 77]), ("_error", [Fn.inert 8]), ("*", [Fn.inert 9])],
    []⟩

/-! ## Basic preservation lemmas about dispatch -/

theorem applyFn_cache (f : Fn) (args : List Val) (st : RoomSt) :
    (applyFn f args st).1.cache = st.cache := by
  cases f <;> rfl

theorem applyFn_connected (f : Fn) (args : List Val) (st : RoomSt) :
    (applyFn f args st).1.connected = st.connected := by
  cases f <;> rfl

theorem runFns_cache (fns : List Fn) (args : List Val) (st : RoomSt) :
    (runFns fns args st).1.cache = st.cache := by
  induction fns generalizing st with
  | nil => rfl
  | cons f fs ih =>
      simp only [runFns]
      cases h : (applyFn f args st).2 with
      | none => simp only [h, ih, applyFn_cache]
      | some e => simp only [h, applyFn_cache]

theorem runWild_cache (nm : String) (fns : List Fn) (args : List Val) (st : RoomSt) :
    (runWild nm fns args st).1.cache = st.cache := by
  induction fns generalizing st args with
  | nil => rfl
  | cons f fs ih =>
      simp only [runWild]
      cases h : (applyFn f (Val.vstr nm :: args) st).2 with
      | none => simp only [h, ih, applyFn_cache]
      | some e => simp only [h, applyFn_cache]

theorem emit_cache (nm : String) (args : List Val) (st : RoomSt) :
    (emit nm args st).1.cache = st.cache := by
  simp only [emit]
  cases h : (runFns (regGet st.events nm) args st).2 with
  | none => simp only [h, runWild_cache, runFns_cache]
  | some e => simp only [h, runFns_cache]

theorem runFns_connected (fns : List Fn) (args : List Val) (st : RoomSt) :
    (runFns fns args st).1.connected = st.connected := by
  induction fns generalizing st with
  | nil => rfl
  | cons f fs ih =>
      simp only [runFns]
      cases h : (applyFn f args st).2 with
      | none => simp only [h, ih, applyFn_connected]
      | some e => simp only [h, applyFn_connected]

theorem runWild_connected (nm : String) (fns : List Fn) (args : List Val) (st : RoomSt) :
    (runWild nm fns args st).1.connected = st.connected := by
  induction fns generalizing st args with
  | nil => rfl
  | cons f fs ih =>
      simp only [runWild]
      cases h : (applyFn f (Val.vstr nm :: args) st).2 with
      | none => simp only [h, ih, applyFn_connected]
      | some e => simp only [h, applyFn_connected]

theorem emit_connected (nm : String) (args : List Val) (st : RoomSt) :
    (emit nm args st).1.connected = st.connected := by
  simp only [emit]
  cases h : (runFns (regGet st.events nm) args st).2 with
  | none => simp only [h, runWild_connected, runFns_connected]
  | some e => simp only [h, runFns_connected]

/-! ## C1: wildcard dispatch arguments -/

/-- C1 (failing evaluation). Claim: on a dispatch of `"a"` with
arguments `(payload, envelope)`, every wildcard listener receives
`("a", payload, envelope)` with the event name prepended exactly once.
The code reassigns `args` inside the wildcard loop, so with two
wildcard listeners the second receives the event name prepended twice:
dispatching to a named listener `1` and wildcard listeners `2, 3`
yields the invocation trace below, where listener `3` receives
`("a", "a", payload, envelope)`. -/
theorem claim_C1_failing_eval :
    (emit "a" [Val.vjson 5, Val.vevent ⟨"p", 0, false, true, .plain (.msg "a" 5)⟩]
      ⟨true, [], [("a", [.inert 1]), ("*", [.inert 2, .inert 3])], []⟩).1.calls =
      [(1, [Val.vjson 5, Val.vevent ⟨"p", 0, false, true, .plain (.msg "a" 5)⟩]),
       (2, [Val.vstr "a", Val.vjson 5, Val.vevent ⟨"p", 0, false, true, .plain (.msg "a" 5)⟩]),
       (3, [Val.vstr "a", Val.vstr "a", Val.vjson 5,
            Val.vevent ⟨"p", 0, false, true, .plain (.msg "a" 5)⟩])] := by
  decide

/-! ## C4: the `members` getter -/

/-- C4 (counterexample). With `inactiveLimit = 10` at time `100`, a
cache holding one fresh entry (author `"a"`, timestamp `95`) and two
stale entries (author `"b"`, timestamps `50` and `40`), the getter
returns `["b", "b"]` — the stale authors, with duplicates — while the
claim's reading (distinct authors of the fresh entries) gives `["a"]`. -/
theorem claim_C4_counterexample :
    members 100 ⟨100, false, true, 0, 21111, [], some 10⟩
        [("x", 0, ⟨"a", 95, false, true, .plain (.msg "x" 0)⟩),
         ("x", 0, ⟨"b", 50, false, true, .plain (.msg "x" 0)⟩),
         ("x", 0, ⟨"b", 40, false, true, .plain (.msg "x" 0)⟩)] ≠
      membersClaimed 100 ⟨100, false, true, 0, 21111, [], some 10⟩
        [("x", 0, ⟨"a", 95, false, true, .plain (.msg "x" 0)⟩),
         ("x", 0, ⟨"b", 50, false, true, .plain (.msg "x" 0)⟩),
         ("x", 0, ⟨"b", 40, false, true, .plain (.msg "x" 0)⟩)] := by
  decide

/-- C4 (amended). When `inactiveLimit` is set, `members` returns the
author pubkeys of exactly those cache entries satisfying
`isExpired(created_at, inactiveLimit)` — the stale entries are the ones
retained, fresh ones are excluded — in cache order and with duplicates
preserved (no distinctness); with no `inactiveLimit` it maps the whole
cache. -/
theorem claim_C4 (nowT : Nat) (cfg : Config) (cache : List CacheEntry) :
    members nowT cfg cache = membersAmendedDef nowT cfg cache := by
  induction cache with
  | nil => cases hl : cfg.inactiveLimit <;> simp [members, membersAmendedDef, hl]
  | cons en t ih =>
      cases hl : cfg.inactiveLimit with
      | none =>
          simp only [members, hl] at ih ⊢
          simp [membersAmendedDef, hl, List.filterMap_cons] at ih ⊢
          exact ih
      | some limit =>
          simp only [members, hl] at ih ⊢
          simp only [membersAmendedDef, hl, List.filterMap_cons] at ih ⊢
          by_cases h : isExpired nowT en.2.2.created_at limit = true
          · simp [h, List.filter_cons, ih]
          · simp only [Bool.not_eq_true] at h
            simp [h, List.filter_cons, ih]

/-! ## C5: publishing while not connected -/

/-- C5. A `pub` call on a room whose `connected` flag is false throws
`'Not connected to room!'` and leaves the room state untouched; the
result does not depend on the serializer, cipher, or transport
(they are universally quantified and never applied), so no
serialization, encryption, or submission is performed. -/
theorem claim_C5 (cfg : Config) (idHex : String) (nowT : Nat)
    (ser : Except Nat String) (enc : String → Except Nat String)
    (submit : Draft → Except Nat NEvent) (tmpl : Template) (st : RoomSt)
    (h : st.connected = false) :
    pub cfg idHex nowT ser enc submit tmpl st = (st, PubOut.notConnected) := by
  simp [pub, h]

/-- C5 witness: a concrete disconnected room. -/
theorem claim_C5_witness :
    pub ⟨100, false, true, 0, 21111, [], none⟩ "roomid" 0 (.ok "c")
        (fun s => .ok s) (fun _ => .error 0) ⟨none, none, none, none⟩
        ⟨false, [], [], []⟩ =
      (⟨false, [], [], []⟩, PubOut.notConnected) :=
  claim_C5 ⟨100, false, true, 0, 21111, [], none⟩ "roomid" 0 (.ok "c")
    (fun s => .ok s) (fun _ => .error 0) ⟨none, none, none, none⟩
    ⟨false, [], [], []⟩ rfl

/-! ## C8: room identity derivation -/

/-- C8. Over any digest function: the identity derivation is
deterministic (equal secrets give equal `cipherKey` and equal `id`),
the id is the second-order digest `digest (digest secret)`, and —
provided the digest has no fixed point — the wire-visible id never
equals the raw cipher key material. -/
theorem claim_C8 (digest : String → String) (s t : String) (hst : s = t)
    (hfp : ∀ x, digest x ≠ x) :
    cipherOf digest s = cipherOf digest t ∧
    roomIdOf digest s = roomIdOf digest t ∧
    roomIdOf digest s = digest (digest s) ∧
    roomIdOf digest s ≠ cipherOf digest s := by
  subst hst
  exact ⟨rfl, rfl, rfl, hfp (digest s)⟩

/-- C8 witness: a concrete fixed-point-free digest (prepend one
character, so no input is its own image). -/
theorem claim_C8_witness :
    cipherOf (fun x => "#" ++ x) "a" = cipherOf (fun x => "#" ++ x) "a" ∧
    roomIdOf (fun x => "#" ++ x) "a" = roomIdOf (fun x => "#" ++ x) "a" ∧
    roomIdOf (fun x => "#" ++ x) "a" = (fun x => "#" ++ x) ((fun x => "#" ++ x) "a") ∧
    roomIdOf (fun x => "#" ++ x) "a" ≠ cipherOf (fun x => "#" ++ x) "a" :=
  claim_C8 (fun x => "#" ++ x) "a" "a" rfl (fun x h => by
    have hlen : ("#" ++ x).length = x.length := congrArg String.length h
    rw [String.length_append] at hlen
    have h1 : ("#" : String).length = 1 := rfl
    omega)

/-! ## Cache behaviour of the ingestion handler -/

theorem handleEvent_cache (cfg : Config) (pk : Option String) (ev : NEvent) (st : RoomSt) :
    (handleEvent cfg pk ev st).1.cache =
      if (!cfg.allowEcho && (ev.pubkey == pk.getD "")) || ev.expired || !ev.valid then
        st.cache
      else
        match decode ev.content with
        | .error _ => st.cache
        | .ok (n, p) => cacheStep cfg.cacheSize st.cache (n, p, ev) := by
  by_cases hg : ((!cfg.allowEcho && (ev.pubkey == pk.getD "")) || ev.expired || !ev.valid) = true
  · simp [handleEvent, hg]
  · rw [Bool.not_eq_true] at hg
    cases hd : decode ev.content with
    | error e => simp [handleEvent, hg, hd, emit_cache]
    | ok np =>
        obtain ⟨n, p⟩ := np
        simp only [handleEvent, hg, hd, cacheStep, Bool.false_eq_true, if_false]
        cases hr : (emit n [Val.vjson p, Val.vevent ev]
            { st with cache :=
                if cfg.cacheSize < (st.cache ++ [(n, p, ev)]).length then
                  (st.cache ++ [(n, p, ev)]).drop 1
                else st.cache ++ [(n, p, ev)] }).2 with
        | none => simp [hr, emit_cache]
        | some e => simp [hr, emit_cache]

theorem cacheStep_length (cs : Nat) (c : List CacheEntry) (en : CacheEntry)
    (h : c.length ≤ cs) : (cacheStep cs c en).length ≤ cs := by
  show (if cs < (c ++ [en]).length then (c ++ [en]).drop 1 else c ++ [en]).length ≤ cs
  by_cases hlt : cs < (c ++ [en]).length
  · rw [if_pos hlt]
    simp only [List.length_drop, List.length_append, List.length_cons,
      List.length_nil] at hlt ⊢
    omega
  · rw [if_neg hlt]
    simp only [List.length_append, List.length_cons, List.length_nil] at hlt ⊢
    omega

theorem foldl_cacheStep (cs : Nat) (l : List CacheEntry) (init : List CacheEntry)
    (h : init.length ≤ cs) :
    l.foldl (cacheStep cs) init = (init ++ l).drop (init.length + l.length - cs) := by
  induction l generalizing init with
  | nil => simp [Nat.sub_eq_zero_of_le h]
  | cons e t ih =>
      simp only [List.foldl_cons, List.length_cons]
      rw [ih (cacheStep cs init e) (cacheStep_length cs init e h)]
      unfold cacheStep
      by_cases hlt : cs < (init ++ [e]).length
      · simp only [if_pos hlt]
        have h1 : (1 : Nat) ≤ (init ++ [e]).length := by
          simp [List.length_append]
        rw [← List.drop_append_of_le_length h1, List.drop_drop]
        simp only [List.length_drop, List.length_append, List.length_cons,
          List.length_nil] at *
        rw [List.append_assoc, List.singleton_append]
        congr 1
        omega
      · simp only [if_neg hlt]
        simp only [List.length_append, List.length_cons, List.length_nil] at *
        rw [List.append_assoc, List.singleton_append]
        congr 1
        omega

theorem accepted_parts (cfg : Config) (pk : Option String) (ev : NEvent)
    (h : accepted cfg pk ev = true) :
    ((!cfg.allowEcho && (ev.pubkey == pk.getD "")) || ev.expired || !ev.valid) = false ∧
    ∃ n p, decode ev.content = .ok (n, p) := by
  simp only [accepted, Bool.and_eq_true, Bool.not_eq_true'] at h
  refine ⟨h.1, ?_⟩
  have h2 := h.2
  rcases hd : decode ev.content with e | ⟨n, p⟩
  · rw [hd] at h2
    simp at h2
  · exact ⟨n, p, rfl⟩

theorem accepted_entryOf (ev : NEvent) :
    ∀ n p, decode ev.content = .ok (n, p) → entryOf ev = some (n, p, ev) := by
  intro n p hd
  simp [entryOf, hd]

theorem handleAll_cache_accepted (cfg : Config) (pk : Option String) (evs : List NEvent)
    (st : RoomSt) (hacc : ∀ ev ∈ evs, accepted cfg pk ev = true) :
    (handleAll cfg pk evs st).cache =
      (evs.filterMap entryOf).foldl (cacheStep cfg.cacheSize) st.cache := by
  induction evs generalizing st with
  | nil => rfl
  | cons ev t ih =>
      have hev := hacc ev (by simp)
      obtain ⟨hg, n, p, hd⟩ := accepted_parts cfg pk ev hev
      have hent : entryOf ev = some (n, p, ev) := accepted_entryOf ev n p hd
      simp only [handleAll, List.foldl_cons, List.filterMap_cons, hent]
      have hcache : (handleEvent cfg pk ev st).1.cache =
          cacheStep cfg.cacheSize st.cache (n, p, ev) := by
        rw [handleEvent_cache, hg, hd]
        simp
      have := ih (handleEvent cfg pk ev st).1 (fun e he => hacc e (by simp [he]))
      simp only [handleAll] at this ⊢
      rw [this, hcache]

theorem accepted_filterMap_length (cfg : Config) (pk : Option String) (evs : List NEvent)
    (hacc : ∀ ev ∈ evs, accepted cfg pk ev = true) :
    (evs.filterMap entryOf).length = evs.length := by
  induction evs with
  | nil => rfl
  | cons ev t ih =>
      have hev := hacc ev (by simp)
      obtain ⟨-, n, p, hd⟩ := accepted_parts cfg pk ev hev
      have hent : entryOf ev = some (n, p, ev) := accepted_entryOf ev n p hd
      simp only [List.filterMap_cons, hent, List.length_cons]
      rw [ih (fun e he => hacc e (by simp [he]))]

/-- C2. With a positive `cacheSize` and an initial cache within the
bound, for a stream of accepted inbound events:
(a) every handler invocation preserves `|cache| ≤ cacheSize`;
(b) when an accepted event overflows the bound, the new cache is the
pushed list minus its index-0 (oldest) entry;
(c) after `N > cacheSize` accepted events, the cache is exactly the
last `cacheSize` accepted entries in arrival order, and is full. -/
theorem claim_C2 (cfg : Config) (pk : Option String) (evs : List NEvent) (st : RoomSt)
    (hcs : 0 < cfg.cacheSize)
    (hinit : st.cache.length ≤ cfg.cacheSize)
    (hacc : ∀ ev ∈ evs, accepted cfg pk ev = true)
    (hN : cfg.cacheSize < evs.length) :
    (∀ (ev : NEvent) (s : RoomSt), s.cache.length ≤ cfg.cacheSize →
        (handleEvent cfg pk ev s).1.cache.length ≤ cfg.cacheSize) ∧
    (∀ (ev : NEvent) (s : RoomSt) (n : String) (p : Nat),
        accepted cfg pk ev = true → decode ev.content = .ok (n, p) →
        cfg.cacheSize < s.cache.length + 1 →
        (handleEvent cfg pk ev s).1.cache = (s.cache ++ [(n, p, ev)]).drop 1) ∧
    (handleAll cfg pk evs st).cache =
      (evs.filterMap entryOf).drop ((evs.filterMap entryOf).length - cfg.cacheSize) ∧
    (handleAll cfg pk evs st).cache.length = cfg.cacheSize := by
  have hlen : (evs.filterMap entryOf).length = evs.length :=
    accepted_filterMap_length cfg pk evs hacc
  have hmain : (handleAll cfg pk evs st).cache =
      (st.cache ++ evs.filterMap entryOf).drop
        (st.cache.length + (evs.filterMap entryOf).length - cfg.cacheSize) := by
    rw [handleAll_cache_accepted cfg pk evs st hacc]
    exact foldl_cacheStep cfg.cacheSize (evs.filterMap entryOf) st.cache hinit
  refine ⟨?_, ?_, ?_, ?_⟩
  · intro ev s hs
    rw [handleEvent_cache]
    by_cases hg : ((!cfg.allowEcho && (ev.pubkey == pk.getD "")) || ev.expired || !ev.valid) = true
    · simpa [hg] using hs
    · rw [Bool.not_eq_true] at hg
      cases hd : decode ev.content with
      | error e => simpa [hg, hd] using hs
      | ok np => simpa [hg, hd] using cacheStep_length cfg.cacheSize s.cache (np.1, np.2, ev) hs
  · intro ev s n p hev hd hover
    obtain ⟨hg, -⟩ := accepted_parts cfg pk ev hev
    have hcc : (handleEvent cfg pk ev s).1.cache =
        cacheStep cfg.cacheSize s.cache (n, p, ev) := by
      rw [handleEvent_cache, hg, hd]
      simp
    have hover' : cfg.cacheSize < (s.cache ++ [(n, p, ev)]).length := by
      simp only [List.length_append, List.length_cons, List.length_nil]
      omega
    rw [hcc]
    show (if cfg.cacheSize < (s.cache ++ [(n, p, ev)]).length then
        (s.cache ++ [(n, p, ev)]).drop 1 else s.cache ++ [(n, p, ev)]) =
      (s.cache ++ [(n, p, ev)]).drop 1
    rw [if_pos hover']
  · rw [hmain]
    have hk : st.cache.length + (evs.filterMap entryOf).length - cfg.cacheSize =
        st.cache.length + ((evs.filterMap entryOf).length - cfg.cacheSize) := by
      rw [hlen]; omega
    rw [hk, List.drop_append]
  · rw [hmain, List.length_drop]
    simp only [List.length_append]
    rw [hlen]
    omega

/-! ## C3: echo, expiration and validity gating -/

/-- C3. (a) If the event is an echo (self-authored with `allowEcho`
off), expired, or invalid, the handler returns with absolutely no
effect: the state (cache, registry, trace) is returned unchanged and
nothing escapes, so nothing was dispatched and `_error` was not
emitted. (b) With `allowEcho = true` the local pubkey is irrelevant: a
self-authored event is handled exactly as anyone else's. (c) In
particular a self-authored, non-expired, valid event with decodable
content is cached normally under `allowEcho = true`. -/
theorem claim_C3 (cfg : Config) (pk : Option String) (ev : NEvent) (st : RoomSt) :
    (((!cfg.allowEcho && (ev.pubkey == pk.getD "")) || ev.expired || !ev.valid) = true →
      handleEvent cfg pk ev st = (st, none)) ∧
    (cfg.allowEcho = true → ∀ pk', handleEvent cfg pk ev st = handleEvent cfg pk' ev st) ∧
    (cfg.allowEcho = true → ev.expired = false → ev.valid = true →
      ∀ n p, decode ev.content = .ok (n, p) →
        (handleEvent cfg pk ev st).1.cache = cacheStep cfg.cacheSize st.cache (n, p, ev)) := by
  refine ⟨?_, ?_, ?_⟩
  · intro hg
    simp [handleEvent, hg]
  · intro hecho pk'
    simp [handleEvent, hecho]
  · intro hecho hexp hval n p hd
    rw [handleEvent_cache, hecho, hexp, hval, hd]
    simp

/-- C3 witness: a self-authored event is dropped without effect when
`allowEcho` is off; with `allowEcho` on, the same event is handled
independently of the local pubkey and lands in the cache. -/
theorem claim_C3_witness :
    handleEvent ⟨2, false, true, 0, 21111, [], none⟩ (some "me")
        ⟨"me", 7, false, true, .plain (.msg "a" 1)⟩ ⟨true, [], [], []⟩ =
      (⟨true, [], [], []⟩, none) ∧
    handleEvent ⟨2, true, true, 0, 21111, [], none⟩ (some "me")
        ⟨"me", 7, false, true, .plain (.msg "a" 1)⟩ ⟨true, [], [], []⟩ =
      handleEvent ⟨2, true, true, 0, 21111, [], none⟩ (some "other")
        ⟨"me", 7, false, true, .plain (.msg "a" 1)⟩ ⟨true, [], [], []⟩ ∧
    (handleEvent ⟨2, true, true, 0, 21111, [], none⟩ (some "me")
        ⟨"me", 7, false, true, .plain (.msg "a" 1)⟩ ⟨true, [], [], []⟩).1.cache =
      cacheStep 2 [] ("a", 1, ⟨"me", 7, false, true, .plain (.msg "a" 1)⟩) :=
  ⟨(claim_C3 ⟨2, false, true, 0, 21111, [], none⟩ (some "me")
      ⟨"me", 7, false, true, .plain (.msg "a" 1)⟩ ⟨true, [], [], []⟩).1 (by decide),
   (claim_C3 ⟨2, true, true, 0, 21111, [], none⟩ (some "me")
      ⟨"me", 7, false, true, .plain (.msg "a" 1)⟩ ⟨true, [], [], []⟩).2.1 rfl (some "other"),
   (claim_C3 ⟨2, true, true, 0, 21111, [], none⟩ (some "me")
      ⟨"me", 7, false, true, .plain (.msg "a" 1)⟩ ⟨true, [], [], []⟩).2.2 rfl rfl rfl
      "a" 1 rfl⟩

/-- C2 witness: `cacheSize = 1`, two accepted events; the final cache
is exactly the last accepted entry and is full. -/
theorem claim_C2_witness :
    (handleAll ⟨1, false, true, 0, 21111, [], none⟩ (some "me") [evC2a, evC2b]
        ⟨true, [], [], []⟩).cache =
      (([evC2a, evC2b].filterMap entryOf).drop
        (([evC2a, evC2b].filterMap entryOf).length - 1)) ∧
    (handleAll ⟨1, false, true, 0, 21111, [], none⟩ (some "me") [evC2a, evC2b]
        ⟨true, [], [], []⟩).cache.length = 1 :=
  ⟨(claim_C2 ⟨1, false, true, 0, 21111, [], none⟩ (some "me") [evC2a, evC2b]
      ⟨true, [], [], []⟩ (by decide) (by decide) (by decide) (by decide)).2.2.1,
   (claim_C2 ⟨1, false, true, 0, 21111, [], none⟩ (some "me") [evC2a, evC2b]
      ⟨true, [], [], []⟩ (by decide) (by decide) (by decide) (by decide)).2.2.2⟩

/-! ## C6: publish failures are swallowed -/

/-- C6. While connected, if the try block of `pub` fails — the
serializer, the cipher, or the transport submit throws `e` — then the
failure is caught: `_error` is emitted with the causing error `e`, and
the call resolves with `undefined` (`PubOut.failed e none`) instead of
propagating the exception (provided the `_error` dispatch itself does
not throw, which is the listeners' doing, not the publish failure's). -/
theorem claim_C6 (cfg : Config) (idHex : String) (nowT : Nat)
    (ser : Except Nat String) (enc : String → Except Nat String)
    (submit : Draft → Except Nat NEvent) (tmpl : Template) (st : RoomSt) (e : Nat)
    (hconn : st.connected = true)
    (hfail : pubAttempt cfg idHex nowT ser enc submit tmpl = .error e)
    (hquiet : (emit "_error" [Val.verr e] st).2 = none) :
    pub cfg idHex nowT ser enc submit tmpl st =
      ((emit "_error" [Val.verr e] st).1, PubOut.failed e none) := by
  simp [pub, hconn, hfail, hquiet]

/-- C6 witness: serialization fails with error `7` on a connected room
with an empty listener registry. -/
theorem claim_C6_witness :
    pub ⟨1, false, true, 0, 21111, [], none⟩ "id" 0 (.error 7) (fun s => .ok s)
        (fun _ => .error 9) ⟨none, none, none, none⟩ ⟨true, [], [], []⟩ =
      ((emit "_error" [Val.verr 7] ⟨true, [], [], []⟩).1, PubOut.failed 7 none) :=
  claim_C6 ⟨1, false, true, 0, 21111, [], none⟩ "id" 0 (.error 7) (fun s => .ok s)
    (fun _ => .error 9) ⟨none, none, none, none⟩ ⟨true, [], [], []⟩ 7
    rfl rfl rfl

/-! ## C7: tag construction of published events -/

/-- C7. On a successful publish, the submitted draft's tag list is
exactly configured tags ++ template-override tags ++ one `h` tag for
the room id ++ one `expiration` tag for `now() + expiration`; the
appended part contributes exactly one `["h", id]` pair and exactly one
`expiration`-headed pair beyond whatever the configured/override tags
contain; the template's `kind`/`created_at` survive into the draft
while its `tags` field never overrides the built list and its
`content` field is ignored entirely. -/
theorem claim_C7 (cfg : Config) (idHex : String) (nowT : Nat)
    (ser : Except Nat String) (enc : String → Except Nat String)
    (submit : Draft → Except Nat NEvent) (tmpl : Template) (st : RoomSt)
    (draft : Draft) (ev : NEvent)
    (hconn : st.connected = true)
    (hok : pubAttempt cfg idHex nowT ser enc submit tmpl = .ok (draft, ev)) :
    pub cfg idHex nowT ser enc submit tmpl st = (st, PubOut.published draft ev) ∧
    draft.tags = cfg.tags ++ tmpl.tags.getD [] ++
      [["h", idHex], ["expiration", toString (nowT + cfg.expiration)]] ∧
    draft.tags.count ["h", idHex] =
      (cfg.tags ++ tmpl.tags.getD []).count ["h", idHex] + 1 ∧
    (draft.tags.filter (fun tg => tg.head? == some "expiration")).length =
      ((cfg.tags ++ tmpl.tags.getD []).filter
        (fun tg => tg.head? == some "expiration")).length + 1 ∧
    draft.kind = tmpl.kind.getD cfg.kind ∧
    draft.created_at = tmpl.created_at ∧
    (∀ c', pubAttempt cfg idHex nowT ser enc submit { tmpl with content := c' } =
      .ok (draft, ev)) := by
  have hpub : pub cfg idHex nowT ser enc submit tmpl st = (st, PubOut.published draft ev) := by
    simp [pub, hconn, hok]
  cases hser : ser with
  | error e0 => simp [pubAttempt, hser] at hok
  | ok c0 =>
      cases henc : (if cfg.encryption then enc c0 else .ok c0) with
      | error e0 => simp [pubAttempt, hser, henc] at hok
      | ok content =>
          cases hsub : submit
              { kind := tmpl.kind.getD cfg.kind
                created_at := tmpl.created_at
                tags := mkTags cfg (tmpl.tags.getD []) idHex nowT
                content := content } with
          | error e0 => simp [pubAttempt, hser, henc, hsub] at hok
          | ok ev0 =>
              have hok2 :
                  ({ kind := tmpl.kind.getD cfg.kind
                     created_at := tmpl.created_at
                     tags := mkTags cfg (tmpl.tags.getD []) idHex nowT
                     content := content } : Draft) = draft ∧ ev0 = ev := by
                have := hok
                simp [pubAttempt, hser, henc, hsub] at this
                exact this
              obtain ⟨hdraft, hev⟩ := hok2
              subst hdraft
              subst hev
              rw [hser] at hpub
              refine ⟨hpub, by simp [mkTags], ?_, ?_, rfl, rfl, ?_⟩
              · simp only [mkTags, List.count_append]
                simp [List.count_cons, List.count_nil]
              · simp only [mkTags, List.filter_append, List.length_append]
                simp [List.filter]
              · intro c'
                rw [← hok]
                simp [pubAttempt, hser, henc, hsub]

/-- C7 witness: one configured tag, one override tag; the draft gains
exactly the `h` and `expiration` pairs, keeps the template's `kind` and
`created_at`, and ignores the template's `content`. -/
theorem claim_C7_witness :
    pub cfgC7 "RID" 10 (.ok "body") (fun s => .ok s) subC7 tmplC7 ⟨true, [], [], []⟩ =
      (⟨true, [], [], []⟩, PubOut.published draftC7 evC7) ∧
    draftC7.tags = cfgC7.tags ++ tmplC7.tags.getD [] ++
      [["h", "RID"], ["expiration", toString (10 + cfgC7.expiration)]] ∧
    draftC7.tags.count ["h", "RID"] =
      (cfgC7.tags ++ tmplC7.tags.getD []).count ["h", "RID"] + 1 ∧
    (draftC7.tags.filter (fun tg => tg.head? == some "expiration")).length =
      ((cfgC7.tags ++ tmplC7.tags.getD []).filter
        (fun tg => tg.head? == some "expiration")).length + 1 ∧
    draftC7.kind = tmplC7.kind.getD cfgC7.kind ∧
    draftC7.created_at = tmplC7.created_at ∧
    (∀ c', pubAttempt cfgC7 "RID" 10 (.ok "body") (fun s => .ok s) subC7
      { tmplC7 with content := c' } = .ok (draftC7, evC7)) :=
  claim_C7 cfgC7 "RID" 10 (.ok "body") (fun s => .ok s) subC7 tmplC7
    ⟨true, [], [], []⟩ draftC7 evC7 rfl rfl

/-! ## Registry lemmas -/

theorem regGet_regSet_self (r : Registry) (n : String) (fns : List Fn) :
    regGet (regSet r n fns) n = fns := by
  induction r with
  | nil => simp [regGet, regSet]
  | cons p ps ih =>
      by_cases h : p.1 = n
      · simp [regGet, regSet, h]
      · simp only [regSet]
        rw [if_neg (by simpa using h)]
        simp only [regGet, List.find?_cons]
        rw [show (p.1 == n) = false from by simpa using h]
        exact ih

theorem regGet_regSet_ne (r : Registry) (n m : String) (fns : List Fn) (h : m ≠ n) :
    regGet (regSet r n fns) m = regGet r m := by
  induction r with
  | nil =>
      simp only [regSet, regGet, List.find?_cons, List.find?_nil]
      rw [show (n == m) = false from by simpa using (Ne.symm h)]
  | cons p ps ih =>
      by_cases hp : p.1 = n
      · simp only [regSet]
        rw [if_pos (by simpa using hp)]
        simp only [regGet, List.find?_cons]
        rw [show (n == m) = false from by simpa using (Ne.symm h)]
        rw [show (p.1 == m) = false from by simp [hp]; exact (Ne.symm h)]
      · simp only [regSet]
        rw [if_neg (by simpa using hp)]
        simp only [regGet, List.find?_cons] at ih ⊢
        cases hm : (p.1 == m) with
        | true => rfl
        | false => exact ih

theorem setDel_subset (l : List Fn) (f g : Fn) (h : g ∈ setDel l f) : g ∈ l := by
  simp only [setDel, List.mem_filter] at h
  exact h.1

theorem setDel_not_mem (l : List Fn) (f : Fn) : f ∉ setDel l f := by
  intro h
  simp only [setDel, List.mem_filter, bne_self_eq_false] at h
  exact absurd h.2 (by simp)

theorem regLe_trans {r1 r2 r3 : Registry} (h12 : regLe r1 r2) (h23 : regLe r2 r3) :
    regLe r1 r3 :=
  fun n f hf => h23 n f (h12 n f hf)

theorem applyFn_regLe (f : Fn) (args : List Val) (st : RoomSt) :
    regLe (applyFn f args st).1.events st.events := by
  cases f with
  | inert k => exact fun n g hg => hg
  | thrower k e => exact fun n g hg => hg
  | onceW k nm i =>
      intro n g hg
      simp only [applyFn] at hg
      by_cases hn : n = nm
      · subst hn
        rw [regGet_regSet_self] at hg
        exact setDel_subset _ _ _ hg
      · rw [regGet_regSet_ne _ _ _ _ hn] at hg
        exact hg

theorem runFns_regLe (fns : List Fn) (args : List Val) (st : RoomSt) :
    regLe (runFns fns args st).1.events st.events := by
  induction fns generalizing st with
  | nil => exact fun n g hg => hg
  | cons f fs ih =>
      simp only [runFns]
      cases h : (applyFn f args st).2 with
      | none =>
          simp only [h]
          exact regLe_trans (ih (applyFn f args st).1) (applyFn_regLe f args st)
      | some e =>
          simp only [h]
          exact applyFn_regLe f args st

theorem runWild_regLe (nm : String) (fns : List Fn) (args : List Val) (st : RoomSt) :
    regLe (runWild nm fns args st).1.events st.events := by
  induction fns generalizing st args with
  | nil => exact fun n g hg => hg
  | cons f fs ih =>
      simp only [runWild]
      cases h : (applyFn f (Val.vstr nm :: args) st).2 with
      | none =>
          simp only [h]
          exact regLe_trans (ih _ _) (applyFn_regLe f _ st)
      | some e =>
          simp only [h]
          exact applyFn_regLe f _ st

theorem emit_regLe (nm : String) (args : List Val) (st : RoomSt) :
    regLe (emit nm args st).1.events st.events := by
  simp only [emit]
  cases h : (runFns (regGet st.events nm) args st).2 with
  | none =>
      simp only [h]
      exact regLe_trans (runWild_regLe _ _ _ _) (runFns_regLe _ _ _)
  | some e =>
      simp only [h]
      exact runFns_regLe _ _ _

/-! ## Invocation-count lemmas -/

theorem countId_append (i : Nat) (a b : List (Nat × List Val)) :
    countId i (a ++ b) = countId i a + countId i b := by
  simp [countId, List.filter_append]

theorem countId_cons (i k : Nat) (a : List Val) (cs : List (Nat × List Val)) :
    countId i ((k, a) :: cs) = (if k = i then 1 else 0) + countId i cs := by
  by_cases h : k = i <;> simp [countId, List.filter_cons, h, Nat.add_comm]

theorem applyFn_countId (i : Nat) (f : Fn) (args : List Val) (st : RoomSt)
    (hf : i ∉ fnIds f) :
    countId i (applyFn f args st).1.calls = countId i st.calls := by
  cases f with
  | inert k =>
      simp only [fnIds, List.mem_singleton] at hf
      simp [applyFn, countId_append, countId_cons, countId, Ne.symm hf]
  | onceW k nm j =>
      simp only [fnIds, List.mem_cons, List.mem_singleton, not_or] at hf
      obtain ⟨h1, h2, -⟩ := hf
      simp [applyFn, countId_append, countId_cons, countId, Ne.symm h1, Ne.symm h2]
  | thrower k e =>
      simp only [fnIds, List.mem_singleton] at hf
      simp [applyFn, countId_append, countId_cons, countId, Ne.symm hf]

theorem runFns_countId (i : Nat) (fns : List Fn) (args : List Val) (st : RoomSt)
    (hf : ∀ f ∈ fns, i ∉ fnIds f) :
    countId i (runFns fns args st).1.calls = countId i st.calls := by
  induction fns generalizing st with
  | nil => rfl
  | cons f fs ih =>
      simp only [runFns]
      cases h : (applyFn f args st).2 with
      | none =>
          simp only [h]
          rw [ih _ (fun g hg => hf g (by simp [hg]))]
          exact applyFn_countId i f args st (hf f (by simp))
      | some e =>
          simp only [h]
          exact applyFn_countId i f args st (hf f (by simp))

theorem runWild_countId (i : Nat) (nm : String) (fns : List Fn) (args : List Val)
    (st : RoomSt) (hf : ∀ f ∈ fns, i ∉ fnIds f) :
    countId i (runWild nm fns args st).1.calls = countId i st.calls := by
  induction fns generalizing st args with
  | nil => rfl
  | cons f fs ih =>
      simp only [runWild]
      cases h : (applyFn f (Val.vstr nm :: args) st).2 with
      | none =>
          simp only [h]
          rw [ih _ _ (fun g hg => hf g (by simp [hg]))]
          exact applyFn_countId i f _ st (hf f (by simp))
      | some e =>
          simp only [h]
          exact applyFn_countId i f _ st (hf f (by simp))

theorem emit_countId (i : Nat) (nm : String) (args : List Val) (st : RoomSt)
    (hnm : ∀ f ∈ regGet st.events nm, i ∉ fnIds f)
    (hw : ∀ f ∈ regGet st.events "*", i ∉ fnIds f) :
    countId i (emit nm args st).1.calls = countId i st.calls := by
  simp only [emit]
  cases h : (runFns (regGet st.events nm) args st).2 with
  | none =>
      simp only [h]
      rw [runWild_countId i nm _ args _
        (fun g hg => hw g (runFns_regLe (regGet st.events nm) args st "*" g hg))]
      exact runFns_countId i _ args st hnm
  | some e =>
      simp only [h]
      exact runFns_countId i _ args st hnm

theorem noMention_mono {i : Nat} {r1 r2 : Registry} (hle : regLe r1 r2)
    (h : noMention i r2) : noMention i r1 :=
  fun n f hf => h n f (hle n f hf)

theorem emit_countId_noMention (i : Nat) (nm : String) (args : List Val) (st : RoomSt)
    (h : noMention i st.events) :
    countId i (emit nm args st).1.calls = countId i st.calls :=
  emit_countId i nm args st (h nm) (h "*")

theorem emitSeq_countId (i : Nat) (l : List (String × List Val)) (st : RoomSt)
    (h : noMention i st.events) :
    countId i (emitSeq l st).calls = countId i st.calls := by
  induction l generalizing st with
  | nil => rfl
  | cons p ps ih =>
      simp only [emitSeq, List.foldl_cons]
      have h1 : noMention i (emit p.1 p.2 st).1.events :=
        noMention_mono (emit_regLe p.1 p.2 st) h
      have := ih (emit p.1 p.2 st).1 h1
      simp only [emitSeq] at this
      rw [this, emit_countId_noMention i p.1 p.2 st h]

/-! ## Throw and decomposition lemmas for the named-dispatch loop -/

theorem applyFn_snd_none (f : Fn) (args : List Val) (st : RoomSt)
    (h : isThrow f = false) : (applyFn f args st).2 = none := by
  cases f with
  | inert k => rfl
  | onceW k nm i => rfl
  | thrower k e => simp [isThrow] at h

theorem runFns_none (fns : List Fn) (args : List Val) (st : RoomSt)
    (h : ∀ f ∈ fns, isThrow f = false) : (runFns fns args st).2 = none := by
  induction fns generalizing st with
  | nil => rfl
  | cons f fs ih =>
      simp only [runFns]
      rw [applyFn_snd_none f args st (h f (by simp))]
      exact ih _ (fun g hg => h g (by simp [hg]))

theorem runFns_append_none (xs ys : List Fn) (args : List Val) (st : RoomSt)
    (h : (runFns xs args st).2 = none) :
    runFns (xs ++ ys) args st = runFns ys args (runFns xs args st).1 := by
  induction xs generalizing st with
  | nil => rfl
  | cons f fs ih =>
      simp only [runFns, List.cons_append] at h ⊢
      cases ha : (applyFn f args st).2 with
      | some e => rw [ha] at h; simp at h
      | none =>
          rw [ha] at h
          exact ih (applyFn f args st).1 h

/-- Invoking the `once` wrapper replaces the subscriber set it was
registered under by the set with the wrapper deleted. -/
theorem applyFn_onceW_events (k : Nat) (nm : String) (i : Nat) (args : List Val)
    (st : RoomSt) :
    regGet (applyFn (Fn.onceW k nm i) args st).1.events nm =
      setDel (regGet st.events nm) (Fn.onceW k nm i) := by
  simp [applyFn, regGet_regSet_self]

/-! ## C9: `once` fires exactly once -/

/-- C9. Suppose `once(nm, fn)` registered the wrapper `onceW k nm inner`
(so `events[nm] = as ++ wrapper :: bs`), where: `nm` is not the wildcard
key, no listener before the wrapper throws, the wrapper appears only
once and only under `nm` (JS `Set` semantics and a single registration),
and no other listener anywhere can invoke `fn` (identity `inner`).
Then the first emit of `nm` invokes `fn` exactly once — the wrapper
removes itself from the registry before calling `fn` — and no sequence
of later emits (of this or any other event name) ever invokes `fn`
again. -/
theorem claim_C9 (st : RoomSt) (nm : String) (args : List Val) (k inner : Nat)
    (as bs : List Fn)
    (hns : nm ≠ "*")
    (hki : k ≠ inner)
    (hreg : regGet st.events nm = as ++ Fn.onceW k nm inner :: bs)
    (hthrow : ∀ f ∈ as, isThrow f = false)
    (hwas : Fn.onceW k nm inner ∉ as)
    (hwbs : Fn.onceW k nm inner ∉ bs)
    (honly : ∀ n, n ≠ nm → Fn.onceW k nm inner ∉ regGet st.events n)
    (hmention : ∀ n f, f ∈ regGet st.events n → f ≠ Fn.onceW k nm inner →
      inner ∉ fnIds f) :
    countId inner (emit nm args st).1.calls = countId inner st.calls + 1 ∧
    ∀ l, countId inner (emitSeq l (emit nm args st).1).calls =
      countId inner (emit nm args st).1.calls := by
  have h_as_none : (runFns as args st).2 = none := runFns_none as args st hthrow
  have h_as_count : countId inner (runFns as args st).1.calls = countId inner st.calls := by
    refine runFns_countId inner as args st (fun f hf => ?_)
    have hm : f ∈ regGet st.events nm := by
      rw [hreg]; exact List.mem_append_left _ hf
    exact hmention nm f hm (fun he => hwas (he ▸ hf))
  have hchain : runFns (regGet st.events nm) args st =
      runFns bs args (applyFn (Fn.onceW k nm inner) args (runFns as args st).1).1 := by
    rw [hreg, runFns_append_none as (Fn.onceW k nm inner :: bs) args st h_as_none]
    rfl
  have hc1 : countId inner
      (applyFn (Fn.onceW k nm inner) args (runFns as args st).1).1.calls =
      countId inner (runFns as args st).1.calls + 1 := by
    simp [applyFn, countId_append, countId_cons, countId, hki]
  have h_bs_count : countId inner
      (runFns bs args (applyFn (Fn.onceW k nm inner) args (runFns as args st).1).1).1.calls =
      countId inner (applyFn (Fn.onceW k nm inner) args (runFns as args st).1).1.calls := by
    refine runFns_countId inner bs args _ (fun f hf => ?_)
    have hm : f ∈ regGet st.events nm := by
      rw [hreg]; exact List.mem_append_right _ (List.mem_cons_of_mem _ hf)
    exact hmention nm f hm (fun he => hwbs (he ▸ hf))
  have hfullcount : countId inner
      (runFns bs args (applyFn (Fn.onceW k nm inner) args (runFns as args st).1).1).1.calls =
      countId inner st.calls + 1 := by
    rw [h_bs_count, hc1, h_as_count]
  have hw_stw : Fn.onceW k nm inner ∉
      regGet (applyFn (Fn.onceW k nm inner) args (runFns as args st).1).1.events nm := by
    rw [applyFn_onceW_events]
    exact setDel_not_mem _ _
  have hwild_mem : ∀ f ∈ regGet
      (runFns bs args (applyFn (Fn.onceW k nm inner) args (runFns as args st).1).1).1.events "*",
      inner ∉ fnIds f := by
    intro f hf
    have h2 := runFns_regLe bs args _ "*" f hf
    have h3 := applyFn_regLe (Fn.onceW k nm inner) args (runFns as args st).1 "*" f h2
    have h4 := runFns_regLe as args st "*" f h3
    exact hmention "*" f h4 (fun he => honly "*" (Ne.symm hns) (he ▸ h4))
  have key : countId inner (emit nm args st).1.calls = countId inner st.calls + 1 ∧
      Fn.onceW k nm inner ∉ regGet (emit nm args st).1.events nm := by
    cases hb : (runFns bs args
        (applyFn (Fn.onceW k nm inner) args (runFns as args st).1).1).2 with
    | some e =>
        have hemit : emit nm args st =
            ((runFns bs args
              (applyFn (Fn.onceW k nm inner) args (runFns as args st).1).1).1, some e) := by
          simp only [emit, hchain, hb]
        rw [hemit]
        refine ⟨hfullcount, fun hmem => hw_stw (runFns_regLe bs args _ nm _ hmem)⟩
    | none =>
        have hemit : emit nm args st = runWild nm
            (regGet (runFns bs args
              (applyFn (Fn.onceW k nm inner) args (runFns as args st).1).1).1.events "*") args
            (runFns bs args
              (applyFn (Fn.onceW k nm inner) args (runFns as args st).1).1).1 := by
          simp only [emit, hchain, hb]
        rw [hemit]
        constructor
        · rw [runWild_countId inner nm _ args _ hwild_mem]
          exact hfullcount
        · intro hmem
          exact hw_stw (runFns_regLe bs args _ nm _ (runWild_regLe nm _ args _ nm _ hmem))
  have hnom : noMention inner (emit nm args st).1.events := by
    intro n f hf
    have hst : f ∈ regGet st.events n := emit_regLe nm args st n f hf
    by_cases hfw : f = Fn.onceW k nm inner
    · subst hfw
      by_cases hn : n = nm
      · subst hn
        exact absurd hf key.2
      · exact absurd hst (honly n hn)
    · exact hmention n f hst hfw
  exact ⟨key.1, fun l => emitSeq_countId inner l (emit nm args st).1 hnom⟩

/-- C9 witness: registry `{"a": {inert 9, onceW 1 "a" 2}}`; emitting
`"a"` invokes the wrapped callback `2` exactly once, and no sequence of
further emits invokes it again. -/
theorem claim_C9_witness :
    countId 2 (emit "a" [Val.vjson 0]
        ⟨true, [], [("a", [.inert 9, .onceW 1 "a" 2])], []⟩).1.calls =
      countId 2 (RoomSt.mk true [] [("a", [.inert 9, .onceW 1 "a" 2])] []).calls + 1 ∧
    ∀ l, countId 2 (emitSeq l (emit "a" [Val.vjson 0]
        ⟨true, [], [("a", [.inert 9, .onceW 1 "a" 2])], []⟩).1).calls =
      countId 2 (emit "a" [Val.vjson 0]
        ⟨true, [], [("a", [.inert 9, .onceW 1 "a" 2])], []⟩).1.calls :=
  claim_C9 ⟨true, [], [("a", [.inert 9, .onceW 1 "a" 2])], []⟩ "a" [Val.vjson 0] 1 2
    [Fn.inert 9] []
    (by decide) (by decide) (by decide) (by decide) (by decide) (by decide)
    (fun n hn hmem => by
      have hne : ("a" == n) = false := by simpa using (Ne.symm hn)
      simp [regGet, List.find?, hne] at hmem)
    (fun n f hf hfw => by
      by_cases hn : n = "a"
      · subst hn
        simp [regGet, List.find?] at hf
        rcases hf with rfl | rfl
        · decide
        · exact absurd rfl hfw
      · have hne : ("a" == n) = false := by simpa using (Ne.symm hn)
        simp [regGet, List.find?, hne] at hf)

/-! ## Exact traces of dispatch over inert listeners -/

theorem runFns_inert (fns : List Fn) (args : List Val) (st : RoomSt)
    (h : ∀ f ∈ fns, ∃ j, f = Fn.inert j) :
    runFns fns args st =
      ({ st with calls := st.calls ++ fns.map (fun f => (idOf f, args)) }, none) := by
  induction fns generalizing st with
  | nil => simp [runFns]
  | cons f fs ih =>
      obtain ⟨j, rfl⟩ := h f (by simp)
      rw [show runFns (Fn.inert j :: fs) args st =
          runFns fs args { st with calls := st.calls ++ [(j, args)] } from rfl]
      rw [ih _ (fun g hg => h g (by simp [hg]))]
      simp [idOf, List.append_assoc]

theorem runWild_inert (nm : String) (fns : List Fn) (args : List Val) (st : RoomSt)
    (h : ∀ f ∈ fns, ∃ j, f = Fn.inert j) :
    runWild nm fns args st =
      ({ st with calls := st.calls ++ wildCalls nm fns args }, none) := by
  induction fns generalizing st args with
  | nil => simp [runWild, wildCalls]
  | cons f fs ih =>
      obtain ⟨j, rfl⟩ := h f (by simp)
      rw [show runWild nm (Fn.inert j :: fs) args st =
          runWild nm fs (Val.vstr nm :: args)
            { st with calls := st.calls ++ [(j, Val.vstr nm :: args)] } from rfl]
      rw [ih _ _ (fun g hg => h g (by simp [hg]))]
      simp [wildCalls, idOf, List.append_assoc]

theorem emit_inert (nm : String) (args : List Val) (st : RoomSt)
    (h1 : ∀ f ∈ regGet st.events nm, ∃ j, f = Fn.inert j)
    (h2 : ∀ f ∈ regGet st.events "*", ∃ j, f = Fn.inert j) :
    emit nm args st =
      ({ st with calls := st.calls
          ++ (regGet st.events nm).map (fun f => (idOf f, args))
          ++ wildCalls nm (regGet st.events "*") args }, none) := by
  simp only [emit]
  rw [runFns_inert _ _ _ h1]
  rw [runWild_inert nm _ args _ h2]

theorem wildCalls_head (nm : String) (fns : List Fn) (args : List Val) :
    ∀ c ∈ wildCalls nm fns args, c.2.head? = some (Val.vstr nm) := by
  induction fns generalizing args with
  | nil => simp [wildCalls]
  | cons f fs ih =>
      intro c hc
      simp only [wildCalls, List.mem_cons] at hc
      rcases hc with rfl | hc
      · rfl
      · exact ih _ c hc

/-! ## C10: a listener throwing during ingestion dispatch -/

/-- C10. An accepted inbound event (gates pass, content decodes to
`(n, p)` with `n ≠ "_error"`) is dispatched to `events[n] = as ++
thrower :: bs` where the listeners before the thrower are plain
callbacks and the `_error` and wildcard listeners are plain callbacks.
Then: the exception is caught inside the handler (nothing escapes to
the transport layer), the cache entry pushed for the event is retained
(push and eviction happen before dispatch), every `_error` listener is
invoked with the thrown value, and no listener ever receives the
original dispatch's wildcard argument list (no recorded call starts
with the event name `n`) — the wildcard phase of the original dispatch
is never reached. -/
theorem claim_C10 (cfg : Config) (pk : Option String) (ev : NEvent) (st : RoomSt)
    (n : String) (p t e : Nat) (as bs : List Fn)
    (hname : n ≠ "_error")
    (hgate : ((!cfg.allowEcho && (ev.pubkey == pk.getD "")) || ev.expired || !ev.valid) = false)
    (hdec : decode ev.content = .ok (n, p))
    (hreg : regGet st.events n = as ++ Fn.thrower t e :: bs)
    (hinert : ∀ f ∈ as, ∃ j, f = Fn.inert j)
    (herr : ∀ f ∈ regGet st.events "_error", ∃ j, f = Fn.inert j)
    (hwild : ∀ f ∈ regGet st.events "*", ∃ j, f = Fn.inert j) :
    (handleEvent cfg pk ev st).2 = none ∧
    (handleEvent cfg pk ev st).1.cache = cacheStep cfg.cacheSize st.cache (n, p, ev) ∧
    (∀ j, Fn.inert j ∈ regGet st.events "_error" →
      (j, [Val.verr e]) ∈ (handleEvent cfg pk ev st).1.calls) ∧
    (∀ c ∈ (handleEvent cfg pk ev st).1.calls,
      c ∈ st.calls ∨ c.2.head? ≠ some (Val.vstr n)) := by
  have key : ∀ (b : Bool) (ca : List CacheEntry) (cl : List (Nat × List Val)),
      emit n [Val.vjson p, Val.vevent ev] (RoomSt.mk b ca st.events cl) =
        (RoomSt.mk b ca st.events (cl
            ++ as.map (fun f => (idOf f, [Val.vjson p, Val.vevent ev]))
            ++ [(t, [Val.vjson p, Val.vevent ev])]), some e) := by
    intro b ca cl
    simp only [emit]
    rw [show regGet (RoomSt.mk b ca st.events cl).events n =
      as ++ Fn.thrower t e :: bs from hreg]
    rw [runFns_append_none as _ _ _ (by rw [runFns_inert as _ _ hinert])]
    rw [runFns_inert as _ _ hinert]
    rfl
  have key2 : ∀ (b : Bool) (ca : List CacheEntry) (cl : List (Nat × List Val)),
      emit "_error" [Val.verr e] (RoomSt.mk b ca st.events cl) =
        (RoomSt.mk b ca st.events (cl
            ++ (regGet st.events "_error").map (fun f => (idOf f, [Val.verr e]))
            ++ wildCalls "_error" (regGet st.events "*") [Val.verr e]), none) := by
    intro b ca cl
    rw [emit_inert "_error" [Val.verr e] (RoomSt.mk b ca st.events cl) herr hwild]
  have hmain : handleEvent cfg pk ev st =
      ({ st with
          cache := if cfg.cacheSize < (st.cache ++ [(n, p, ev)]).length then
              (st.cache ++ [(n, p, ev)]).drop 1
            else st.cache ++ [(n, p, ev)],
          calls := st.calls
            ++ as.map (fun f => (idOf f, [Val.vjson p, Val.vevent ev]))
            ++ [(t, [Val.vjson p, Val.vevent ev])]
            ++ (regGet st.events "_error").map (fun f => (idOf f, [Val.verr e]))
            ++ wildCalls "_error" (regGet st.events "*") [Val.verr e] }, none) := by
    simp only [handleEvent, hgate, Bool.false_eq_true, if_false, hdec]
    rw [key]
    dsimp only
    rw [key2]
  refine ⟨by rw [hmain], by rw [hmain]; rfl, ?_, ?_⟩
  · intro j hj
    rw [hmain]
    exact List.mem_append_left _ (List.mem_append_right _
      (List.mem_map.mpr ⟨Fn.inert j, hj, rfl⟩))
  · intro c hc
    rw [hmain] at hc
    have hc2 : c ∈ st.calls
        ++ as.map (fun f => (idOf f, [Val.vjson p, Val.vevent ev]))
        ++ [(t, [Val.vjson p, Val.vevent ev])]
        ++ (regGet st.events "_error").map (fun f => (idOf f, [Val.verr e]))
        ++ wildCalls "_error" (regGet st.events "*") [Val.verr e] := hc
    simp only [List.mem_append, List.mem_singleton] at hc2
    rcases hc2 with ((((h | h) | h) | h) | h)
    · exact Or.inl h
    · obtain ⟨f, -, rfl⟩ := List.mem_map.mp h
      exact Or.inr (by simp)
    · subst h
      exact Or.inr (by simp)
    · obtain ⟨f, -, rfl⟩ := List.mem_map.mp h
      exact Or.inr (by simp)
    · refine Or.inr ?_
      rw [wildCalls_head "_error" _ _ c h]
      intro hh
      exact hname (Val.vstr.inj (Option.some.inj hh)).symm

/-- C10 witness: the thrown value `77` is caught, the cache keeps the
entry, the `_error` listener `8` receives the thrown value, and no
call carries the original event's wildcard-shaped arguments. -/
theorem claim_C10_witness :
    (handleEvent ⟨2, false, true, 0, 21111, [], none⟩ (some "me") evC10 stC10).2 = none ∧
    (handleEvent ⟨2, false, true, 0, 21111, [], none⟩ (some "me") evC10 stC10).1.cache =
      cacheStep 2 stC10.cache ("chat", 4, evC10) ∧
    (∀ j, Fn.inert j ∈ regGet stC10.events "_error" →
      (j, [Val.verr 77]) ∈
        (handleEvent ⟨2, false, true, 0, 21111, [], none⟩ (some "me") evC10 stC10).1.calls) ∧
    (∀ c ∈ (handleEvent ⟨2, false, true, 0, 21111, [], none⟩ (some "me") evC10 stC10).1.calls,
      c ∈ stC10.calls ∨ c.2.head? ≠ some (Val.vstr "chat")) :=
  claim_C10 ⟨2, false, true, 0, 21111, [], none⟩ (some "me") evC10 stC10
    "chat" 4 6 77 [Fn.inert 5] []
    (by decide) (by decide) rfl (by decide)
    (fun f hf => ⟨5, by simpa using hf⟩)
    (fun f hf => ⟨8, by
      have h : regGet stC10.events "_error" = [Fn.inert 8] := by decide
      rw [h] at hf
      simpa using hf⟩)
    (fun f hf => ⟨9, by
      have h : regGet stC10.events "*" = [Fn.inert 9] := by decide
      rw [h] at hf
      simpa using hf⟩)
